import Mathlib

/-!
Shallow embedding of the Z80 disassembler formatting core (z80.cpp):
name tables, the bounded output buffer and the format-string interpreter
of disassembler_base::on_format_impl, together with proofs of the
specified rendering properties.
-/

/-- Registers, as in enum class reg (z80.cpp uses b, c, d, e, h, l, at_hl, a). -/
inductive Reg where
| b | c | d | e | h | l | at_hl | a
deriving DecidableEq

/-- Index register pairs, as in enum class index_regp (hl, ix, iy). -/
inductive IndexRegp where
| hl | ix | iy
deriving DecidableEq

/-- Register pairs, as in enum class regp (bc, de, hl, sp). -/
inductive Regp where
| bc | de | hl | sp
deriving DecidableEq

/-- ALU operations, as in enum class alu. -/
inductive Alu where
| add | adc | sub | sbc | and_a | xor_a | or_a | cp
deriving DecidableEq

/-- Block transfer operations, as in enum class block_ld. -/
inductive BlockLd where
| ldi | ldd | ldir | lddr
deriving DecidableEq

/-- Condition codes, as in enum class condition. -/
inductive Condition where
| nz | z | nc | c | po | pe | p | m
deriving DecidableEq

/-- get_reg_name(reg r), z80.cpp lines 14-26. -/
def get_reg_name : Reg → String
| Reg.b => ("b")
| Reg.c => ("c")
| Reg.d => ("d")
| Reg.e => ("e")
| Reg.h => ("h")
| Reg.l => ("l")
| Reg.at_hl => ("(hl)")
| Reg.a => ("a")

/-- get_reg_name(index_regp irp), z80.cpp lines 28-35. -/
def get_reg_name_irp : IndexRegp → String
| IndexRegp.hl => ("hl")
| IndexRegp.ix => ("ix")
| IndexRegp.iy => ("iy")

/-- get_reg_name(regp rp, index_regp irp), z80.cpp lines 37-45:
register pair hl goes through the index-register overlay. -/
def get_reg_name_rp : Regp → IndexRegp → String
| Regp.bc, _ => ("bc")
| Regp.de, _ => ("de")
| Regp.hl, irp => get_reg_name_irp irp
| Regp.sp, _ => ("sp")

/-- get_mnemonic(alu k), z80.cpp lines 47-59. -/
def get_mnemonic : Alu → String
| Alu.add => ("add")
| Alu.adc => ("adc")
| Alu.sub => ("sub")
| Alu.sbc => ("sbc")
| Alu.and_a => ("and")
| Alu.xor_a => ("xor")
| Alu.or_a => ("or")
| Alu.cp => ("cp")

/-- get_mnemonic(block_ld k), z80.cpp lines 61-69. -/
def get_mnemonic_bld : BlockLd → String
| BlockLd.ldi => ("ldi")
| BlockLd.ldd => ("ldd")
| BlockLd.ldir => ("ldir")
| BlockLd.lddr => ("lddr")

/-- is_two_operand_alu_instr(alu k), z80.cpp lines 71-73. -/
def is_two_operand_alu_instr (k : Alu) : Bool :=
  k = Alu.add || k = Alu.adc || k = Alu.sbc

/-- get_index_reg_name(index_regp irp), z80.cpp lines 75-82. -/
def get_index_reg_name : IndexRegp → String
| IndexRegp.hl => ("hl")
| IndexRegp.ix => ("ix")
| IndexRegp.iy => ("iy")

/-- get_condition_name(condition cc), z80.cpp lines 84-96. -/
def get_condition_name : Condition → String
| Condition.nz => ("nz")
| Condition.z => ("z")
| Condition.nc => ("nc")
| Condition.c => ("c")
| Condition.po => ("po")
| Condition.pe => ("pe")
| Condition.p => ("p")
| Condition.m => ("m")

/-- Modelled from the spec: sign_extend8 is declared in the repository
header (z80.h), which is not among the provided sources; the spec says the
displacement byte is sign-extended before it is rendered in decimal.
This is the standard two's-complement sign extension of the low byte. -/
def sign_extend8 (n : Nat) : Int :=
  if n % 256 < 128 then ((n % 256 : Nat) : Int) else ((n % 256 : Nat) : Int) - 256

/-- output_buff::max_size, z80.cpp line 142. -/
def max_size : Nat := 32

/-- The output buffer of class output_buff: the characters written so far
(buff up to size). -/
structure OutputBuff where
  buff : List Char
deriving DecidableEq

/-- output_buff::append(char c), z80.cpp lines 110-113: the assert on
size < max_size is modelled by returning none when it would fail. -/
def OutputBuff.append (b : OutputBuff) (c : Char) : Option OutputBuff :=
  if b.buff.length < max_size then some ⟨b.buff ++ [c]⟩ else none

/-- output_buff::append(const char *str), z80.cpp lines 115-118: appends
the characters one by one (the C string's characters before its
terminator are exactly the list s). -/
def OutputBuff.appendList : OutputBuff → List Char → Option OutputBuff
| b, [] => some b
| b, c :: rest =>
  match b.append c with
  | some b2 => b2.appendList rest
  | none => none

/-- Lower-case hexadecimal digits of n, zero-padded on the left to at
least the given width: the rendering of snprintf's "%0*x". -/
def hexChars (width n : Nat) : List Char :=
  let ds := Nat.toDigits 16 n
  List.replicate (width - ds.length) '0' ++ ds

/-- output_buff::append_u8, z80.cpp lines 120-125: snprintf "0x%02x". -/
def OutputBuff.append_u8 (b : OutputBuff) (n : Nat) : Option OutputBuff :=
  b.appendList ('0' :: 'x' :: hexChars 2 n)

/-- output_buff::append_u16, z80.cpp lines 127-132: snprintf "0x%04x". -/
def OutputBuff.append_u16 (b : OutputBuff) (n : Nat) : Option OutputBuff :=
  b.appendList ('0' :: 'x' :: hexChars 4 n)

/-- The characters of snprintf "%+d" applied to d: an explicit sign
followed by the decimal digits of the magnitude. -/
def dispChars (d : Int) : List Char :=
  (if d < 0 then '-' else '+') :: Nat.toDigits 10 d.natAbs

/-- output_buff::append_disp(int d), z80.cpp lines 134-139. -/
def OutputBuff.append_disp (b : OutputBuff) (d : Int) : Option OutputBuff :=
  b.appendList (dispChars d)

/-- The NUL character appended as the terminator at z80.cpp line 209. -/
def nulChar : Char := Char.ofNat 0

/-- One element of the argument stream of on_format_impl: the value a
directive reads through get_arg, tagged with its static type. -/
inductive Arg where
| aAlu : Alu → Arg
| aReg : Reg → Arg
| aIrp : IndexRegp → Arg
| aRegp : Regp → Arg
| aU8 : Nat → Arg
| aU16 : Nat → Arg
| aInt : Int → Arg
| aCond : Condition → Arg
| aBld : BlockLd → Arg
deriving DecidableEq

/-- One iteration of the loop body of disassembler_base::on_format_impl,
z80.cpp lines 159-207: process format character c against the argument
stream, appending into the buffer. A type or arity mismatch between the
directive and the stream (undefined behavior in the C) is modelled as
none, as is a buffer overflow. -/
def formatStep (out : OutputBuff) (c : Char) (args : List Arg) :
    Option (OutputBuff × List Arg) :=
  if c = 'A' then
    match args with
    | Arg.aAlu k :: rest =>
      match out.appendList (get_mnemonic k).data with
      | some o2 =>
        if is_two_operand_alu_instr k then
          match o2.appendList ((" a,").data) with
          | some o3 => some (o3, rest)
          | none => none
        else some (o2, rest)
      | none => none
    | _ => none
  else if c = 'R' then
    match args with
    | Arg.aReg r :: Arg.aIrp irp :: Arg.aU8 d :: rest =>
      if r ≠ Reg.at_hl ∨ irp = IndexRegp.hl then
        match out.appendList (get_reg_name r).data with
        | some o2 => some (o2, rest)
        | none => none
      else
        match out.append '(' with
        | some o2 =>
          match o2.appendList (get_index_reg_name irp).data with
          | some o3 =>
            match o3.append_disp (sign_extend8 d) with
            | some o4 =>
              match o4.append ')' with
              | some o5 => some (o5, rest)
              | none => none
            | none => none
          | none => none
        | none => none
    | _ => none
  else if c = 'P' then
    match args with
    | Arg.aRegp rp :: Arg.aIrp irp :: rest =>
      match out.appendList (get_reg_name_rp rp irp).data with
      | some o2 => some (o2, rest)
      | none => none
    | _ => none
  else if c = 'N' then
    match args with
    | Arg.aU8 n :: rest =>
      match out.append_u8 n with
      | some o2 => some (o2, rest)
      | none => none
    | _ => none
  else if c = 'W' then
    match args with
    | Arg.aU16 nn :: rest =>
      match out.append_u16 nn with
      | some o2 => some (o2, rest)
      | none => none
    | _ => none
  else if c = 'C' then
    match args with
    | Arg.aCond cc :: rest =>
      match out.appendList (get_condition_name cc).data with
      | some o2 => some (o2, rest)
      | none => none
    | _ => none
  else if c = 'D' then
    match args with
    | Arg.aInt d :: rest =>
      match out.append '$' with
      | some o2 =>
        match o2.append_disp d with
        | some o3 => some (o3, rest)
        | none => none
      | none => none
    | _ => none
  else if c = 'L' then
    match args with
    | Arg.aBld k :: rest =>
      match out.appendList (get_mnemonic_bld k).data with
      | some o2 => some (o2, rest)
      | none => none
    | _ => none
  else
    match out.append c with
    | some o2 => some (o2, args)
    | none => none

/-- The scanning loop of on_format_impl, z80.cpp line 158: left-to-right
over the format characters (the characters of fmt before the C string's
terminator). -/
def formatScan : OutputBuff → List Char → List Arg → Option OutputBuff
| out, [], _ => some out
| out, c :: rest, args =>
  match formatStep out c args with
  | some (o2, a2) => formatScan o2 rest a2
  | none => none

/-- disassembler_base::on_format_impl, z80.cpp lines 156-212: scan the
format string, append the NUL terminator through the same checked append,
and return the buffer contents handed to on_output. -/
def on_format_impl (fmt : List Char) (args : List Arg) : Option (List Char) :=
  match formatScan ⟨[]⟩ fmt args with
  | some o =>
    match o.append nulChar with
    | some o2 => some o2.buff
    | none => none
  | none => none

/-- The sequence of lines passed to the on_output callback by one call of
on_format_impl: the single call site at z80.cpp line 211 fires once,
after the scan, with the buffer contents. -/
def on_format_outputs (fmt : List Char) (args : List Arg) :
    Option (List (List Char)) :=
  match on_format_impl fmt args with
  | some line => some [line]
  | none => none

/-- The eight directive characters of the interpreter's switch. -/
def directiveChars : List Char := ['A', 'R', 'P', 'N', 'W', 'C', 'D', 'L']

/-- The characters one step of the interpreter emits, together with the
remaining argument stream: formatStep without the capacity bound. Used
to phrase a call's total output. -/
def emitStep (c : Char) (args : List Arg) : Option (List Char × List Arg) :=
  if c = 'A' then
    match args with
    | Arg.aAlu k :: rest =>
      some ((get_mnemonic k).data ++
        (if is_two_operand_alu_instr k then (" a,").data else []), rest)
    | _ => none
  else if c = 'R' then
    match args with
    | Arg.aReg r :: Arg.aIrp irp :: Arg.aU8 d :: rest =>
      if r ≠ Reg.at_hl ∨ irp = IndexRegp.hl then
        some ((get_reg_name r).data, rest)
      else
        some ('(' :: (get_index_reg_name irp).data ++
          dispChars (sign_extend8 d) ++ [')'], rest)
    | _ => none
  else if c = 'P' then
    match args with
    | Arg.aRegp rp :: Arg.aIrp irp :: rest =>
      some ((get_reg_name_rp rp irp).data, rest)
    | _ => none
  else if c = 'N' then
    match args with
    | Arg.aU8 n :: rest => some ('0' :: 'x' :: hexChars 2 n, rest)
    | _ => none
  else if c = 'W' then
    match args with
    | Arg.aU16 nn :: rest => some ('0' :: 'x' :: hexChars 4 nn, rest)
    | _ => none
  else if c = 'C' then
    match args with
    | Arg.aCond cc :: rest => some ((get_condition_name cc).data, rest)
    | _ => none
  else if c = 'D' then
    match args with
    | Arg.aInt d :: rest => some ('$' :: dispChars d, rest)
    | _ => none
  else if c = 'L' then
    match args with
    | Arg.aBld k :: rest => some ((get_mnemonic_bld k).data, rest)
    | _ => none
  else
    some ([c], args)

/-- The characters a whole scan emits (formatScan without the capacity
bound), with the remaining argument stream. -/
def emitScan : List Char → List Arg → Option (List Char × List Arg)
| [], args => some ([], args)
| c :: rest, args =>
  match emitStep c args with
  | some (s, a2) =>
    match emitScan rest a2 with
    | some (t, a3) => some (s ++ t, a3)
    | none => none
  | none => none

theorem append_eq_of_lt (b : OutputBuff) (c : Char) (h : b.buff.length < max_size) :
    b.append c = some ⟨b.buff ++ [c]⟩ := by
  simp [OutputBuff.append, h]

theorem append_eq_none (b : OutputBuff) (c : Char) (h : ¬ b.buff.length < max_size) :
    b.append c = none := by
  simp [OutputBuff.append, h]

theorem append_some (b b2 : OutputBuff) (c : Char) (h : b.append c = some b2) :
    b2.buff = b.buff ++ [c] ∧ b2.buff.length ≤ max_size := by
  unfold OutputBuff.append at h
  split at h
  · cases h
    constructor
    · rfl
    · simp
      omega
  · cases h

theorem appendList_singleton (b : OutputBuff) (c : Char) :
    b.appendList [c] = b.append c := by
  unfold OutputBuff.appendList
  cases b.append c with
  | some b2 => rfl
  | none => rfl

theorem appendList_append (b : OutputBuff) (s t : List Char) :
    b.appendList (s ++ t) = (b.appendList s).bind (fun b2 => b2.appendList t) := by
  induction s generalizing b with
  | nil => simp [OutputBuff.appendList]
  | cons c cs ih =>
    simp only [List.cons_append, OutputBuff.appendList]
    cases b.append c with
    | some b2 => simpa using ih b2
    | none => rfl

theorem appendList_eq_of_le (s : List Char) (b : OutputBuff)
    (h : b.buff.length + s.length ≤ max_size) :
    b.appendList s = some ⟨b.buff ++ s⟩ := by
  induction s generalizing b with
  | nil => simp [OutputBuff.appendList]
  | cons c cs ih =>
    have hlt : b.buff.length < max_size := by
      simp only [List.length_cons] at h
      omega
    simp only [OutputBuff.appendList, append_eq_of_lt b c hlt]
    have h2 : (OutputBuff.mk (b.buff ++ [c])).buff.length + cs.length ≤ max_size := by
      simp only [List.length_append, List.length_cons, List.length_nil] at h ⊢
      omega
    simpa using ih ⟨b.buff ++ [c]⟩ h2

theorem appendList_some (s : List Char) (b b2 : OutputBuff)
    (h : b.appendList s = some b2) : b2.buff = b.buff ++ s := by
  induction s generalizing b with
  | nil =>
    cases h
    simp
  | cons c cs ih =>
    unfold OutputBuff.appendList at h
    cases hc : b.append c with
    | some bm =>
      rw [hc] at h
      have := (append_some b bm c hc).1
      rw [ih bm h, this]
      simp
    | none =>
      rw [hc] at h
      cases h

theorem appendList_le (s : List Char) (b b2 : OutputBuff)
    (hb : b.buff.length ≤ max_size) (h : b.appendList s = some b2) :
    b2.buff.length ≤ max_size := by
  induction s generalizing b with
  | nil =>
    cases h
    exact hb
  | cons c cs ih =>
    unfold OutputBuff.appendList at h
    cases hc : b.append c with
    | some bm =>
      rw [hc] at h
      exact ih bm (append_some b bm c hc).2 h
    | none =>
      rw [hc] at h
      cases h

theorem appendList_cons (b : OutputBuff) (c : Char) (s : List Char) :
    b.appendList (c :: s) = (b.append c).bind (fun b2 => b2.appendList s) := by
  show (match b.append c with
        | some b2 => b2.appendList s
        | none => none) = (b.append c).bind (fun b2 => b2.appendList s)
  cases h : b.append c <;> simp [h]

theorem formatStep_eq_emit (b : OutputBuff) (c : Char) (args : List Arg) :
    formatStep b c args =
      (emitStep c args).bind
        (fun sa => (b.appendList sa.1).map (fun b2 => (b2, sa.2))) := by
  unfold formatStep emitStep
  split_ifs
  · -- directive 'A'
    rcases args with _ | ⟨a1, args⟩
    · rfl
    cases a1 <;> try rfl
    rename_i k
    dsimp only
    simp only [Option.some_bind]
    rw [appendList_append]
    cases hm : b.appendList (get_mnemonic k).data with
    | none => simp [hm]
    | some o2 =>
      by_cases htwo : is_two_operand_alu_instr k = true
      · simp only [hm, htwo, if_true, Option.some_bind]
        cases h2 : o2.appendList ((" a,").data) <;> simp [h2]
      · simp [hm, htwo, OutputBuff.appendList]
  · -- directive 'R'
    rcases args with _ | ⟨a1, args⟩
    · rfl
    cases a1 <;> try rfl
    rename_i r
    rcases args with _ | ⟨a2, args⟩
    · rfl
    cases a2 <;> try rfl
    rename_i irp
    rcases args with _ | ⟨a3, args⟩
    · rfl
    cases a3 <;> try rfl
    rename_i d
    dsimp only
    by_cases hcond : r ≠ Reg.at_hl ∨ irp = IndexRegp.hl
    · rw [if_pos hcond, if_pos hcond]
      simp only [Option.some_bind]
      cases hm : b.appendList (get_reg_name r).data <;> simp [hm]
    · rw [if_neg hcond, if_neg hcond]
      simp only [Option.some_bind]
      rw [appendList_append, appendList_append, appendList_cons]
      cases h1 : b.append '(' with
      | none => simp [h1]
      | some o2 =>
        simp only [h1, Option.some_bind]
        cases h2 : o2.appendList (get_index_reg_name irp).data with
        | none => simp [h2]
        | some o3 =>
          simp only [h2, Option.some_bind, OutputBuff.append_disp]
          cases h3 : o3.appendList (dispChars (sign_extend8 d)) with
          | none => simp [h3]
          | some o4 =>
            simp only [h3, Option.some_bind]
            rw [appendList_singleton]
            cases h4 : o4.append ')' <;> simp [h4]
  · -- directive 'P'
    rcases args with _ | ⟨a1, args⟩
    · rfl
    cases a1 <;> try rfl
    rename_i rp
    rcases args with _ | ⟨a2, args⟩
    · rfl
    cases a2 <;> try rfl
    rename_i irp
    dsimp only
    simp only [Option.some_bind]
    cases hm : b.appendList (get_reg_name_rp rp irp).data <;> simp [hm]
  · -- directive 'N'
    rcases args with _ | ⟨a1, args⟩
    · rfl
    cases a1 <;> try rfl
    rename_i n
    dsimp only [OutputBuff.append_u8]
    simp only [Option.some_bind]
    cases hm : b.appendList ('0' :: 'x' :: hexChars 2 n) <;> simp [hm]
  · -- directive 'W'
    rcases args with _ | ⟨a1, args⟩
    · rfl
    cases a1 <;> try rfl
    rename_i nn
    dsimp only [OutputBuff.append_u16]
    simp only [Option.some_bind]
    cases hm : b.appendList ('0' :: 'x' :: hexChars 4 nn) <;> simp [hm]
  · -- directive 'C'
    rcases args with _ | ⟨a1, args⟩
    · rfl
    cases a1 <;> try rfl
    rename_i cc
    dsimp only
    simp only [Option.some_bind]
    cases hm : b.appendList (get_condition_name cc).data <;> simp [hm]
  · -- directive 'D'
    rcases args with _ | ⟨a1, args⟩
    · rfl
    cases a1 <;> try rfl
    rename_i d
    dsimp only
    simp only [Option.some_bind]
    rw [appendList_cons]
    cases h1 : b.append '$' with
    | none => simp [h1]
    | some o2 =>
      simp only [h1, Option.some_bind, OutputBuff.append_disp]
      cases h2 : o2.appendList (dispChars d) <;> simp [h2]
  · -- directive 'L'
    rcases args with _ | ⟨a1, args⟩
    · rfl
    cases a1 <;> try rfl
    rename_i k
    dsimp only
    simp only [Option.some_bind]
    cases hm : b.appendList (get_mnemonic_bld k).data <;> simp [hm]
  · -- literal character
    simp only [Option.some_bind]
    rw [appendList_singleton]
    cases h1 : b.append c <;> simp [h1]

theorem formatScan_cons (b : OutputBuff) (c : Char) (rest : List Char)
    (args : List Arg) :
    formatScan b (c :: rest) args =
      (formatStep b c args).bind (fun oa => formatScan oa.1 rest oa.2) := by
  show (match formatStep b c args with
        | some (o2, a2) => formatScan o2 rest a2
        | none => none) = _
  cases h : formatStep b c args with
  | some oa =>
    obtain ⟨o2, a2⟩ := oa
    simp
  | none => simp

theorem emitScan_cons (c : Char) (rest : List Char) (args : List Arg) :
    emitScan (c :: rest) args =
      (emitStep c args).bind (fun sa =>
        (emitScan rest sa.2).map (fun ta => (sa.1 ++ ta.1, ta.2))) := by
  show (match emitStep c args with
        | some (s, a2) =>
          match emitScan rest a2 with
          | some (t, a3) => some (s ++ t, a3)
          | none => none
        | none => none) = _
  cases h : emitStep c args with
  | some sa =>
    obtain ⟨s, a2⟩ := sa
    cases h2 : emitScan rest a2 with
    | some ta =>
      obtain ⟨t, a3⟩ := ta
      simp [h2]
    | none => simp [h2]
  | none => simp

theorem on_format_impl_eq (fmt : List Char) (args : List Arg) :
    on_format_impl fmt args =
      (formatScan ⟨[]⟩ fmt args).bind
        (fun o => (o.append nulChar).map (fun o2 => o2.buff)) := by
  show (match formatScan ⟨[]⟩ fmt args with
        | some o =>
          match o.append nulChar with
          | some o2 => some o2.buff
          | none => none
        | none => none) = _
  cases h : formatScan ⟨[]⟩ fmt args with
  | some o =>
    cases h2 : o.append nulChar <;> simp [h2]
  | none => simp

theorem formatStep_complete (b : OutputBuff) (c : Char) (args : List Arg)
    (s : List Char) (a2 : List Arg) (h : emitStep c args = some (s, a2))
    (hle : b.buff.length + s.length ≤ max_size) :
    formatStep b c args = some (⟨b.buff ++ s⟩, a2) := by
  rw [formatStep_eq_emit, h, Option.some_bind, appendList_eq_of_le s b hle]
  rfl

theorem formatStep_sound (b b2 : OutputBuff) (c : Char) (args a2 : List Arg)
    (h : formatStep b c args = some (b2, a2)) :
    ∃ s, emitStep c args = some (s, a2) ∧ b2.buff = b.buff ++ s := by
  rw [formatStep_eq_emit] at h
  cases he : emitStep c args with
  | none =>
    rw [he] at h
    cases h
  | some sa =>
    obtain ⟨s, a⟩ := sa
    rw [he, Option.some_bind] at h
    cases hb : b.appendList s with
    | none =>
      rw [hb] at h
      cases h
    | some bm =>
      rw [hb] at h
      replace h : (some (bm, a) : Option (OutputBuff × List Arg)) = some (b2, a2) := h
      injection h with h
      rw [Prod.mk.injEq] at h
      obtain ⟨hbm, ha⟩ := h
      refine ⟨s, ?_, ?_⟩
      · rw [ha]
      · rw [← hbm]
        exact appendList_some s b bm hb

theorem formatScan_complete (fmt : List Char) :
    ∀ (args : List Arg) (b : OutputBuff) (s : List Char) (rest : List Arg),
    emitScan fmt args = some (s, rest) →
    b.buff.length + s.length ≤ max_size →
    formatScan b fmt args = some ⟨b.buff ++ s⟩ := by
  induction fmt with
  | nil =>
    intro args b s rest h hle
    unfold emitScan at h
    simp only [Option.some.injEq, Prod.mk.injEq] at h
    obtain ⟨h1, h2⟩ := h
    subst h1
    simp [formatScan]
  | cons c rest' ih =>
    intro args b s rest h hle
    rw [emitScan_cons] at h
    cases he : emitStep c args with
    | none =>
      rw [he] at h
      cases h
    | some sa =>
      obtain ⟨s1, a2⟩ := sa
      rw [he, Option.some_bind] at h
      cases ht : emitScan rest' a2 with
      | none =>
        rw [ht] at h
        cases h
      | some ta =>
        obtain ⟨t, a3⟩ := ta
        rw [ht] at h
        replace h : (some (s1 ++ t, a3) : Option (List Char × List Arg)) = some (s, rest) := h
        injection h with h
        rw [Prod.mk.injEq] at h
        obtain ⟨h1, h2⟩ := h
        subst h1
        have hs1 : b.buff.length + s1.length ≤ max_size := by
          simp only [List.length_append] at hle
          omega
        rw [formatScan_cons, formatStep_complete b c args s1 a2 he hs1, Option.some_bind]
        have hlen2 : (OutputBuff.mk (b.buff ++ s1)).buff.length + t.length ≤ max_size := by
          simp only [List.length_append] at hle ⊢
          omega
        rw [ih a2 ⟨b.buff ++ s1⟩ t a3 ht hlen2]
        simp

theorem formatScan_sound (fmt : List Char) :
    ∀ (args : List Arg) (b b2 : OutputBuff),
    formatScan b fmt args = some b2 →
    ∃ s rest, emitScan fmt args = some (s, rest) ∧ b2.buff = b.buff ++ s := by
  induction fmt with
  | nil =>
    intro args b b2 h
    unfold formatScan at h
    injection h with h
    subst h
    exact ⟨[], args, rfl, by simp⟩
  | cons c rest' ih =>
    intro args b b2 h
    rw [formatScan_cons] at h
    cases hs : formatStep b c args with
    | none =>
      rw [hs] at h
      cases h
    | some oa =>
      obtain ⟨o2, a2⟩ := oa
      rw [hs, Option.some_bind] at h
      obtain ⟨s1, he, hbuff⟩ := formatStep_sound b o2 c args a2 hs
      obtain ⟨t, rest2, ht, hbuff2⟩ := ih a2 o2 b2 h
      refine ⟨s1 ++ t, rest2, ?_, ?_⟩
      · rw [emitScan_cons, he, Option.some_bind, ht]
        rfl
      · rw [hbuff2, hbuff]
        simp

theorem on_format_impl_complete (fmt : List Char) (args : List Arg)
    (s : List Char) (rest : List Arg)
    (h : emitScan fmt args = some (s, rest)) (hle : s.length + 1 ≤ max_size) :
    on_format_impl fmt args = some (s ++ [nulChar]) := by
  rw [on_format_impl_eq]
  have hscan := formatScan_complete fmt args ⟨[]⟩ s rest h
    (by simpa using Nat.le_of_succ_le hle)
  rw [hscan, Option.some_bind]
  have hlt : (OutputBuff.mk (([] : List Char) ++ s)).buff.length < max_size := by
    simpa using hle
  rw [append_eq_of_lt _ nulChar hlt]
  rfl

theorem on_format_impl_sound (fmt : List Char) (args : List Arg) (out : List Char)
    (h : on_format_impl fmt args = some out) :
    ∃ s rest, emitScan fmt args = some (s, rest) ∧ out = s ++ [nulChar] ∧
      out.length ≤ max_size := by
  rw [on_format_impl_eq] at h
  cases hscan : formatScan ⟨[]⟩ fmt args with
  | none =>
    rw [hscan] at h
    cases h
  | some o =>
    rw [hscan, Option.some_bind] at h
    cases happ : o.append nulChar with
    | none =>
      rw [happ] at h
      cases h
    | some o2 =>
      rw [happ] at h
      replace h : (some o2.buff : Option (List Char)) = some out := h
      injection h with h
      subst h
      obtain ⟨s, rest, he, hbuff⟩ := formatScan_sound fmt args ⟨[]⟩ o hscan
      obtain ⟨hb2, hlen⟩ := append_some o o2 nulChar happ
      refine ⟨s, rest, he, ?_, ?_⟩
      · rw [hb2, hbuff]
        simp
      · exact hlen

theorem toDigits_length_le (b n e : Nat) (hb : 2 ≤ b) (he : 0 < e)
    (h : n < b ^ e) : (Nat.toDigits b n).length ≤ e :=
  Nat.toDigitsCore_length b hb (n + 1) n e h he

theorem toDigitsCore_unfold (b f n : Nat) (ds : List Char) (hf : 0 < f) :
    Nat.toDigitsCore b f n ds =
      if n / b = 0 then Nat.digitChar (n % b) :: ds
      else Nat.toDigitsCore b (f - 1) (n / b) (Nat.digitChar (n % b) :: ds) := by
  obtain ⟨f2, rfl⟩ : ∃ f2, f = f2 + 1 := ⟨f - 1, by omega⟩
  rw [Nat.add_sub_cancel]
  rfl

theorem toDigits16_eq_1 (n : Nat) (h : n < 16) :
    Nat.toDigits 16 n = [Nat.digitChar n] := by
  show Nat.toDigitsCore 16 (n + 1) n [] = _
  rw [toDigitsCore_unfold 16 (n + 1) n [] (by omega)]
  rw [if_pos (by omega)]
  have h2 : n % 16 = n := by omega
  rw [h2]

theorem toDigits16_eq_2 (n : Nat) (h1 : 16 ≤ n) (h : n < 256) :
    Nat.toDigits 16 n = [Nat.digitChar (n / 16), Nat.digitChar (n % 16)] := by
  show Nat.toDigitsCore 16 (n + 1) n [] = _
  rw [toDigitsCore_unfold 16 (n + 1) n [] (by omega)]
  rw [if_neg (by omega)]
  rw [toDigitsCore_unfold 16 (n + 1 - 1) (n / 16) _ (by omega)]
  rw [if_pos (by omega)]
  have h2 : n / 16 % 16 = n / 16 := by omega
  rw [h2]

theorem toDigits16_eq_3 (n : Nat) (h1 : 256 ≤ n) (h : n < 4096) :
    Nat.toDigits 16 n =
      [Nat.digitChar (n / 256), Nat.digitChar (n / 16 % 16),
       Nat.digitChar (n % 16)] := by
  show Nat.toDigitsCore 16 (n + 1) n [] = _
  rw [toDigitsCore_unfold 16 (n + 1) n [] (by omega)]
  rw [if_neg (by omega)]
  rw [toDigitsCore_unfold 16 (n + 1 - 1) (n / 16) _ (by omega)]
  rw [if_neg (by omega)]
  rw [toDigitsCore_unfold 16 (n + 1 - 1 - 1) (n / 16 / 16) _ (by omega)]
  rw [if_pos (by omega)]
  have h2 : n / 16 / 16 % 16 = n / 256 := by omega
  rw [h2]

theorem toDigits16_eq_4 (n : Nat) (h1 : 4096 ≤ n) (h : n < 65536) :
    Nat.toDigits 16 n =
      [Nat.digitChar (n / 4096), Nat.digitChar (n / 256 % 16),
       Nat.digitChar (n / 16 % 16), Nat.digitChar (n % 16)] := by
  show Nat.toDigitsCore 16 (n + 1) n [] = _
  rw [toDigitsCore_unfold 16 (n + 1) n [] (by omega)]
  rw [if_neg (by omega)]
  rw [toDigitsCore_unfold 16 (n + 1 - 1) (n / 16) _ (by omega)]
  rw [if_neg (by omega)]
  rw [toDigitsCore_unfold 16 (n + 1 - 1 - 1) (n / 16 / 16) _ (by omega)]
  rw [if_neg (by omega)]
  rw [toDigitsCore_unfold 16 (n + 1 - 1 - 1 - 1) (n / 16 / 16 / 16) _ (by omega)]
  rw [if_pos (by omega)]
  have h2 : n / 16 / 16 / 16 % 16 = n / 4096 := by omega
  have h3 : n / 16 / 16 % 16 = n / 256 % 16 := by omega
  rw [h2, h3]

theorem hexChars2_eq (n : Nat) (h : n < 256) :
    hexChars 2 n = [Nat.digitChar (n / 16), Nat.digitChar (n % 16)] := by
  unfold hexChars
  by_cases h1 : n < 16
  · rw [toDigits16_eq_1 n h1]
    have e1 : n / 16 = 0 := by omega
    have e2 : n % 16 = n := by omega
    rw [e1, e2]
    rfl
  · rw [toDigits16_eq_2 n (by omega) h]
    rfl

theorem hexChars4_eq (n : Nat) (h : n < 65536) :
    hexChars 4 n = [Nat.digitChar (n / 4096), Nat.digitChar (n / 256 % 16),
                    Nat.digitChar (n / 16 % 16), Nat.digitChar (n % 16)] := by
  unfold hexChars
  by_cases h1 : n < 16
  · rw [toDigits16_eq_1 n h1]
    have e1 : n / 4096 = 0 := by omega
    have e2 : n / 256 % 16 = 0 := by omega
    have e3 : n / 16 % 16 = 0 := by omega
    have e4 : n % 16 = n := by omega
    rw [e1, e2, e3, e4]
    rfl
  · by_cases h2 : n < 256
    · rw [toDigits16_eq_2 n (by omega) h2]
      have e1 : n / 4096 = 0 := by omega
      have e2 : n / 256 % 16 = 0 := by omega
      have e3 : n / 16 % 16 = n / 16 := by omega
      rw [e1, e2, e3]
      rfl
    · by_cases h3 : n < 4096
      · rw [toDigits16_eq_3 n (by omega) h3]
        have e1 : n / 4096 = 0 := by omega
        have e2 : n / 256 % 16 = n / 256 := by omega
        rw [e1, e2]
        rfl
      · rw [toDigits16_eq_4 n (by omega) h]
        rfl

theorem digitChar_eq_star (m : Nat) (h : 16 ≤ m) : Nat.digitChar m = '*' := by
  have hne : ∀ k : Nat, k < 16 → ¬ m = k := by omega
  unfold Nat.digitChar
  rw [if_neg (hne 0 (by norm_num)), if_neg (hne 1 (by norm_num)),
      if_neg (hne 2 (by norm_num)), if_neg (hne 3 (by norm_num)),
      if_neg (hne 4 (by norm_num)), if_neg (hne 5 (by norm_num)),
      if_neg (hne 6 (by norm_num)), if_neg (hne 7 (by norm_num)),
      if_neg (hne 8 (by norm_num)), if_neg (hne 9 (by norm_num)),
      if_neg (hne 10 (by norm_num)), if_neg (hne 11 (by norm_num)),
      if_neg (hne 12 (by norm_num)), if_neg (hne 13 (by norm_num)),
      if_neg (hne 14 (by norm_num)), if_neg (hne 15 (by norm_num))]

theorem digitChar_ne_nul (m : Nat) : Nat.digitChar m ≠ nulChar := by
  by_cases h : m < 16
  · interval_cases m <;> decide
  · rw [digitChar_eq_star m (by omega)]
    decide

theorem digitChar_mem_hex (m : Nat) (h : m < 16) :
    Nat.digitChar m ∈ ("0123456789abcdef").data := by
  interval_cases m <;> decide

theorem sign_extend8_natAbs_le (d : Nat) : (sign_extend8 d).natAbs ≤ 128 := by
  unfold sign_extend8
  split_ifs <;> omega

theorem sign_extend8_mod (d : Nat) : sign_extend8 d = sign_extend8 (d % 256) := by
  unfold sign_extend8
  have h : d % 256 % 256 = d % 256 := by omega
  rw [h]

theorem dispChars_length_le (d : Int) (h : d.natAbs ≤ 128) :
    (dispChars d).length ≤ 4 := by
  unfold dispChars
  simp only [List.length_cons]
  have hp : d.natAbs < 10 ^ 3 := by
    have h3 : (10 : Nat) ^ 3 = 1000 := by norm_num
    omega
  have := toDigits_length_le 10 d.natAbs 3 (by norm_num) (by norm_num) hp
  omega

theorem toDigitsCore_forall_ne_nul (b : Nat) :
    ∀ (f n : Nat) (ds : List Char), (∀ c ∈ ds, c ≠ nulChar) →
    ∀ c ∈ Nat.toDigitsCore b f n ds, c ≠ nulChar := by
  intro f
  induction f with
  | zero =>
    intro n ds h
    exact h
  | succ f ih =>
    intro n ds h c hc
    rw [toDigitsCore_unfold b (f + 1) n ds (by omega), Nat.add_sub_cancel] at hc
    by_cases hz : n / b = 0
    · rw [if_pos hz] at hc
      rcases List.mem_cons.mp hc with h1 | h2
      · rw [h1]
        exact digitChar_ne_nul _
      · exact h c h2
    · rw [if_neg hz] at hc
      refine ih (n / b) (Nat.digitChar (n % b) :: ds) ?_ c hc
      intro c2 hc2
      rcases List.mem_cons.mp hc2 with h1 | h2
      · rw [h1]
        exact digitChar_ne_nul _
      · exact h c2 h2

theorem toDigits_ne_nul (b n : Nat) : ∀ c ∈ Nat.toDigits b n, c ≠ nulChar :=
  toDigitsCore_forall_ne_nul b (n + 1) n [] (by simp)

theorem dispChars_ne_nul (d : Int) : ∀ c ∈ dispChars d, c ≠ nulChar := by
  intro c hc
  unfold dispChars at hc
  rcases List.mem_cons.mp hc with h1 | h2
  · rw [h1]
    split <;> decide
  · exact toDigits_ne_nul 10 d.natAbs c h2

theorem hexChars_ne_nul (w n : Nat) : ∀ c ∈ hexChars w n, c ≠ nulChar := by
  intro c hc
  unfold hexChars at hc
  rcases List.mem_append.mp hc with h1 | h2
  · rw [List.eq_of_mem_replicate h1]
    decide
  · exact toDigits_ne_nul 16 n c h2

theorem get_reg_name_ne_nul (r : Reg) : ∀ c ∈ (get_reg_name r).data, c ≠ nulChar := by
  cases r <;> decide

theorem get_index_reg_name_ne_nul (irp : IndexRegp) :
    ∀ c ∈ (get_index_reg_name irp).data, c ≠ nulChar := by
  cases irp <;> decide

theorem get_reg_name_rp_ne_nul (rp : Regp) (irp : IndexRegp) :
    ∀ c ∈ (get_reg_name_rp rp irp).data, c ≠ nulChar := by
  cases rp <;> cases irp <;> decide

theorem get_mnemonic_ne_nul (k : Alu) : ∀ c ∈ (get_mnemonic k).data, c ≠ nulChar := by
  cases k <;> decide

theorem get_mnemonic_bld_ne_nul (k : BlockLd) :
    ∀ c ∈ (get_mnemonic_bld k).data, c ≠ nulChar := by
  cases k <;> decide

theorem get_condition_name_ne_nul (cc : Condition) :
    ∀ c ∈ (get_condition_name cc).data, c ≠ nulChar := by
  cases cc <;> decide

theorem emitStep_ne_nul (c : Char) (args : List Arg) (s : List Char) (a2 : List Arg)
    (hc : c ≠ nulChar) (h : emitStep c args = some (s, a2)) :
    ∀ x ∈ s, x ≠ nulChar := by
  unfold emitStep at h
  split_ifs at h
  · -- 'A'
    split at h
    · rename_i k rest
      injection h with h
      rw [Prod.mk.injEq] at h
      obtain ⟨h1, _⟩ := h
      subst h1
      intro x hx
      rcases List.mem_append.mp hx with h2 | h2
      · exact get_mnemonic_ne_nul k x h2
      · by_cases htwo : is_two_operand_alu_instr k = true
        · rw [if_pos htwo] at h2
          have hax : ∀ y ∈ ((" a,").data), y ≠ nulChar := by decide
          exact hax x h2
        · rw [if_neg htwo] at h2
          cases h2
    · cases h
  · -- 'R'
    split at h
    · rename_i r irp d rest
      split_ifs at h with hcond
      · injection h with h
        rw [Prod.mk.injEq] at h
        obtain ⟨h1, _⟩ := h
        subst h1
        exact get_reg_name_ne_nul r
      · injection h with h
        rw [Prod.mk.injEq] at h
        obtain ⟨h1, _⟩ := h
        subst h1
        intro x hx
        rcases List.mem_append.mp hx with h2 | h2
        · rcases List.mem_append.mp h2 with h3 | h3
          · rcases List.mem_cons.mp h3 with h4 | h4
            · rw [h4]
              decide
            · exact get_index_reg_name_ne_nul irp x h4
          · exact dispChars_ne_nul (sign_extend8 d) x h3
        · rcases List.mem_cons.mp h2 with h3 | h3
          · rw [h3]
            decide
          · cases h3
    · cases h
  · -- 'P'
    split at h
    · rename_i rp irp rest
      injection h with h
      rw [Prod.mk.injEq] at h
      obtain ⟨h1, _⟩ := h
      subst h1
      exact get_reg_name_rp_ne_nul rp irp
    · cases h
  · -- 'N'
    split at h
    · rename_i n rest
      injection h with h
      rw [Prod.mk.injEq] at h
      obtain ⟨h1, _⟩ := h
      subst h1
      intro x hx
      rcases List.mem_cons.mp hx with h2 | h2
      · rw [h2]
        decide
      · rcases List.mem_cons.mp h2 with h3 | h3
        · rw [h3]
          decide
        · exact hexChars_ne_nul 2 n x h3
    · cases h
  · -- 'W'
    split at h
    · rename_i nn rest
      injection h with h
      rw [Prod.mk.injEq] at h
      obtain ⟨h1, _⟩ := h
      subst h1
      intro x hx
      rcases List.mem_cons.mp hx with h2 | h2
      · rw [h2]
        decide
      · rcases List.mem_cons.mp h2 with h3 | h3
        · rw [h3]
          decide
        · exact hexChars_ne_nul 4 nn x h3
    · cases h
  · -- 'C'
    split at h
    · rename_i cc rest
      injection h with h
      rw [Prod.mk.injEq] at h
      obtain ⟨h1, _⟩ := h
      subst h1
      exact get_condition_name_ne_nul cc
    · cases h
  · -- 'D'
    split at h
    · rename_i d rest
      injection h with h
      rw [Prod.mk.injEq] at h
      obtain ⟨h1, _⟩ := h
      subst h1
      intro x hx
      rcases List.mem_cons.mp hx with h2 | h2
      · rw [h2]
        decide
      · exact dispChars_ne_nul d x h2
    · cases h
  · -- 'L'
    split at h
    · rename_i k rest
      injection h with h
      rw [Prod.mk.injEq] at h
      obtain ⟨h1, _⟩ := h
      subst h1
      exact get_mnemonic_bld_ne_nul k
    · cases h
  · -- literal
    injection h with h
    rw [Prod.mk.injEq] at h
    obtain ⟨h1, _⟩ := h
    subst h1
    intro x hx
    rcases List.mem_cons.mp hx with h2 | h2
    · rw [h2]
      exact hc
    · cases h2

theorem emitScan_ne_nul (fmt : List Char) :
    ∀ (args : List Arg) (s : List Char) (rest : List Arg),
    (∀ c ∈ fmt, c ≠ nulChar) → emitScan fmt args = some (s, rest) →
    ∀ x ∈ s, x ≠ nulChar := by
  induction fmt with
  | nil =>
    intro args s rest hfmt h
    unfold emitScan at h
    injection h with h
    rw [Prod.mk.injEq] at h
    obtain ⟨h1, _⟩ := h
    subst h1
    intro x hx
    cases hx
  | cons c rest' ih =>
    intro args s rest hfmt h
    rw [emitScan_cons] at h
    cases he : emitStep c args with
    | none =>
      rw [he] at h
      cases h
    | some sa =>
      obtain ⟨s1, a2⟩ := sa
      rw [he, Option.some_bind] at h
      cases ht : emitScan rest' a2 with
      | none =>
        rw [ht] at h
        cases h
      | some ta =>
        obtain ⟨t, a3⟩ := ta
        rw [ht] at h
        replace h : (some (s1 ++ t, a3) : Option (List Char × List Arg)) = some (s, rest) := h
        injection h with h
        rw [Prod.mk.injEq] at h
        obtain ⟨h1, _⟩ := h
        subst h1
        intro x hx
        rcases List.mem_append.mp hx with h2 | h2
        · exact emitStep_ne_nul c args s1 a2 (hfmt c (by simp)) he x h2
        · exact ih a2 t a3 (fun y hy => hfmt y (by simp [hy])) ht x h2

/-- Claim C1: the register directive on the memory-indirect placeholder
at_hl emits exactly "(hl)" under the unindexed context hl, for every
displacement; under an ix/iy context it emits "(", the index register
name, the sign-extended displacement in signed decimal, and ")";
in particular ix with byte 253 (value -3) gives "(ix-3)" and iy with
byte 5 gives "(iy+5)". -/
theorem C1_mem_indirect_register_rendering (d : Nat) :
    (formatStep ⟨[]⟩ 'R' [Arg.aReg Reg.at_hl, Arg.aIrp IndexRegp.hl, Arg.aU8 d] =
      some (⟨("(hl)").data⟩, []))
    ∧ (∀ irp : IndexRegp, irp ≠ IndexRegp.hl →
        formatStep ⟨[]⟩ 'R' [Arg.aReg Reg.at_hl, Arg.aIrp irp, Arg.aU8 d] =
          some (⟨'(' :: (get_index_reg_name irp).data ++
            dispChars (sign_extend8 d) ++ [')']⟩, []))
    ∧ formatStep ⟨[]⟩ 'R' [Arg.aReg Reg.at_hl, Arg.aIrp IndexRegp.ix, Arg.aU8 253] =
        some (⟨("(ix-3)").data⟩, [])
    ∧ formatStep ⟨[]⟩ 'R' [Arg.aReg Reg.at_hl, Arg.aIrp IndexRegp.iy, Arg.aU8 5] =
        some (⟨("(iy+5)").data⟩, []) := by
  refine ⟨rfl, ?_, by decide, by decide⟩
  intro irp hirp
  have hemit : emitStep 'R' [Arg.aReg Reg.at_hl, Arg.aIrp irp, Arg.aU8 d] =
      some ('(' :: (get_index_reg_name irp).data ++
        dispChars (sign_extend8 d) ++ [')'], []) := by
    cases irp
    · exact absurd rfl hirp
    · rfl
    · rfl
  have hd := dispChars_length_le (sign_extend8 d) (sign_extend8_natAbs_le d)
  have hlen : (⟨[]⟩ : OutputBuff).buff.length +
      ('(' :: (get_index_reg_name irp).data ++
        dispChars (sign_extend8 d) ++ [')']).length ≤ max_size := by
    cases irp <;>
      simp only [get_index_reg_name, List.length_append, List.length_cons,
        List.length_nil, String.data, max_size] <;>
      omega
  have hres := formatStep_complete ⟨[]⟩ 'R'
    [Arg.aReg Reg.at_hl, Arg.aIrp irp, Arg.aU8 d] _ [] hemit hlen
  simpa using hres

theorem C1_mem_indirect_register_rendering_witness :
    formatStep ⟨[]⟩ 'R' [Arg.aReg Reg.at_hl, Arg.aIrp IndexRegp.ix, Arg.aU8 7] =
      some (⟨'(' :: (get_index_reg_name IndexRegp.ix).data ++
        dispChars (sign_extend8 7) ++ [')']⟩, []) :=
  (C1_mem_indirect_register_rendering 7).2.1 IndexRegp.ix (by decide)

/-- Claim C2: the register directive on any register other than the
memory-indirect placeholder appends exactly the register's fixed name,
for every index-register context and displacement, consuming all three
arguments. -/
theorem C2_plain_register_rendering (r : Reg) (irp : IndexRegp) (d : Nat)
    (h : r ≠ Reg.at_hl) :
    formatStep ⟨[]⟩ 'R' [Arg.aReg r, Arg.aIrp irp, Arg.aU8 d] =
      some (⟨(get_reg_name r).data⟩, []) := by
  cases r <;> first | exact absurd rfl h | rfl

theorem C2_plain_register_rendering_witness :
    formatStep ⟨[]⟩ 'R' [Arg.aReg Reg.b, Arg.aIrp IndexRegp.ix, Arg.aU8 9] =
      some (⟨("b").data⟩, []) :=
  C2_plain_register_rendering Reg.b IndexRegp.ix 9 (by decide)

/-- Claim C3: the register-pair directive renders hl through the
index-register overlay ("hl"/"ix"/"iy" by context) while bc, de and sp
always render their fixed names, unaffected by the context. -/
theorem C3_register_pair_rendering :
    (∀ irp, formatStep ⟨[]⟩ 'P' [Arg.aRegp Regp.hl, Arg.aIrp irp] =
      some (⟨(get_reg_name_irp irp).data⟩, []))
    ∧ formatStep ⟨[]⟩ 'P' [Arg.aRegp Regp.hl, Arg.aIrp IndexRegp.hl] =
        some (⟨("hl").data⟩, [])
    ∧ formatStep ⟨[]⟩ 'P' [Arg.aRegp Regp.hl, Arg.aIrp IndexRegp.ix] =
        some (⟨("ix").data⟩, [])
    ∧ formatStep ⟨[]⟩ 'P' [Arg.aRegp Regp.hl, Arg.aIrp IndexRegp.iy] =
        some (⟨("iy").data⟩, [])
    ∧ (∀ irp, formatStep ⟨[]⟩ 'P' [Arg.aRegp Regp.bc, Arg.aIrp irp] =
        some (⟨("bc").data⟩, []))
    ∧ (∀ irp, formatStep ⟨[]⟩ 'P' [Arg.aRegp Regp.de, Arg.aIrp irp] =
        some (⟨("de").data⟩, []))
    ∧ (∀ irp, formatStep ⟨[]⟩ 'P' [Arg.aRegp Regp.sp, Arg.aIrp irp] =
        some (⟨("sp").data⟩, [])) := by
  refine ⟨?_, by decide, by decide, by decide, ?_, ?_, ?_⟩ <;>
    intro irp <;> cases irp <;> rfl

/-- Claim C4: the ALU directive appends the operation's mnemonic and the
literal suffix " a," exactly for the two-operand operations add, adc and
sbc; add renders "add a," and the and operation renders "and". -/
theorem C4_alu_rendering :
    (∀ k, formatStep ⟨[]⟩ 'A' [Arg.aAlu k] =
      some (⟨(get_mnemonic k).data ++
        (if is_two_operand_alu_instr k then ((" a,").data) else [])⟩, []))
    ∧ (∀ k, is_two_operand_alu_instr k = true ↔
        (k = Alu.add ∨ k = Alu.adc ∨ k = Alu.sbc))
    ∧ formatStep ⟨[]⟩ 'A' [Arg.aAlu Alu.add] = some (⟨("add a,").data⟩, [])
    ∧ formatStep ⟨[]⟩ 'A' [Arg.aAlu Alu.and_a] = some (⟨("and").data⟩, []) := by
  refine ⟨?_, ?_, by decide, by decide⟩
  · intro k
    cases k <;> rfl
  · intro k
    cases k <;> decide

/-- Claim C7: the 8-bit immediate directive renders "0x" followed by
exactly two lower-case zero-padded hexadecimal digits of the value when
it fits in 8 bits, and the 16-bit directive "0x" followed by exactly four
such digits when it fits in 16 bits; 10 renders "0x0a" and 4660 renders
"0x1234". -/
theorem C7_immediate_rendering :
    (∀ n : Nat, n < 256 →
      formatStep ⟨[]⟩ 'N' [Arg.aU8 n] =
        some (⟨'0' :: 'x' ::
          [Nat.digitChar (n / 16), Nat.digitChar (n % 16)]⟩, []))
    ∧ (∀ n : Nat, n < 65536 →
      formatStep ⟨[]⟩ 'W' [Arg.aU16 n] =
        some (⟨'0' :: 'x' ::
          [Nat.digitChar (n / 4096), Nat.digitChar (n / 256 % 16),
           Nat.digitChar (n / 16 % 16), Nat.digitChar (n % 16)]⟩, []))
    ∧ (∀ m : Nat, m < 16 → Nat.digitChar m ∈ ("0123456789abcdef").data)
    ∧ formatStep ⟨[]⟩ 'N' [Arg.aU8 10] = some (⟨("0x0a").data⟩, [])
    ∧ formatStep ⟨[]⟩ 'W' [Arg.aU16 4660] = some (⟨("0x1234").data⟩, []) := by
  refine ⟨?_, ?_, digitChar_mem_hex, by decide, by decide⟩
  · intro n hn
    have hemit : emitStep 'N' [Arg.aU8 n] =
        some ('0' :: 'x' ::
          [Nat.digitChar (n / 16), Nat.digitChar (n % 16)], []) := by
      show some ('0' :: 'x' :: hexChars 2 n, []) = _
      rw [hexChars2_eq n hn]
    have hlen : (⟨[]⟩ : OutputBuff).buff.length +
        ('0' :: 'x' ::
          [Nat.digitChar (n / 16), Nat.digitChar (n % 16)]).length ≤ max_size := by
      simp [max_size]
    have hres := formatStep_complete ⟨[]⟩ 'N' [Arg.aU8 n] _ [] hemit hlen
    simpa using hres
  · intro n hn
    have hemit : emitStep 'W' [Arg.aU16 n] =
        some ('0' :: 'x' ::
          [Nat.digitChar (n / 4096), Nat.digitChar (n / 256 % 16),
           Nat.digitChar (n / 16 % 16), Nat.digitChar (n % 16)], []) := by
      show some ('0' :: 'x' :: hexChars 4 n, []) = _
      rw [hexChars4_eq n hn]
    have hlen : (⟨[]⟩ : OutputBuff).buff.length +
        ('0' :: 'x' ::
          [Nat.digitChar (n / 4096), Nat.digitChar (n / 256 % 16),
           Nat.digitChar (n / 16 % 16), Nat.digitChar (n % 16)]).length ≤ max_size := by
      simp [max_size]
    have hres := formatStep_complete ⟨[]⟩ 'W' [Arg.aU16 n] _ [] hemit hlen
    simpa using hres

theorem C7_immediate_rendering_witness :
    formatStep ⟨[]⟩ 'N' [Arg.aU8 10] =
      some (⟨'0' :: 'x' ::
        [Nat.digitChar (10 / 16), Nat.digitChar (10 % 16)]⟩, []) :=
  C7_immediate_rendering.1 10 (by decide)

theorem emitStep_literal (c : Char) (args : List Arg) (hc : c ∉ directiveChars) :
    emitStep c args = some ([c], args) := by
  simp only [directiveChars, List.mem_cons, List.not_mem_nil, or_false, not_or] at hc
  obtain ⟨h1, h2, h3, h4, h5, h6, h7, h8⟩ := hc
  unfold emitStep
  rw [if_neg h1, if_neg h2, if_neg h3, if_neg h4, if_neg h5, if_neg h6,
      if_neg h7, if_neg h8]

theorem emitScan_literal_sublist (fmt : List Char) :
    ∀ (args : List Arg) (s : List Char) (rest : List Arg),
    emitScan fmt args = some (s, rest) →
    List.Sublist (fmt.filter (fun c => decide (c ∉ directiveChars))) s := by
  induction fmt with
  | nil =>
    intro args s rest h
    unfold emitScan at h
    injection h with h
    rw [Prod.mk.injEq] at h
    obtain ⟨h1, _⟩ := h
    subst h1
    simp
  | cons c rest' ih =>
    intro args s rest h
    rw [emitScan_cons] at h
    cases he : emitStep c args with
    | none =>
      rw [he] at h
      cases h
    | some sa =>
      obtain ⟨s1, a2⟩ := sa
      rw [he, Option.some_bind] at h
      cases ht : emitScan rest' a2 with
      | none =>
        rw [ht] at h
        cases h
      | some ta =>
        obtain ⟨t, a3⟩ := ta
        rw [ht] at h
        replace h : (some (s1 ++ t, a3) : Option (List Char × List Arg)) =
          some (s, rest) := h
        injection h with h
        rw [Prod.mk.injEq] at h
        obtain ⟨h1, _⟩ := h
        subst h1
        by_cases hd : c ∈ directiveChars
        · have hp : (decide (c ∉ directiveChars)) = false := by
            simp [hd]
          rw [List.filter_cons, hp]
          simp only [Bool.false_eq_true, if_false]
          exact (ih a2 t a3 ht).trans (List.sublist_append_right s1 t)
        · have hp : (decide (c ∉ directiveChars)) = true := by
            simp [hd]
          rw [List.filter_cons, hp]
          simp only [if_true]
          rw [emitStep_literal c args hd] at he
          injection he with he
          rw [Prod.mk.injEq] at he
          obtain ⟨he1, _⟩ := he
          rw [← he1]
          exact List.Sublist.cons₂ c (ih a2 t a3 ht)

/-- Claim C5: every append checks that the write position is strictly
below the 32-character capacity before writing, so the position never
exceeds the capacity; a full buffer makes append fail (the assertion)
rather than truncate; and whenever the call's whole output including the
terminator fits in 32 characters, the formatting call succeeds with the
untruncated output. -/
theorem C5_capacity_checked_append :
    (∀ (b : OutputBuff) (c : Char), b.buff.length < max_size →
      b.append c = some ⟨b.buff ++ [c]⟩)
    ∧ (∀ (b : OutputBuff) (c : Char), ¬ b.buff.length < max_size →
      b.append c = none)
    ∧ (∀ (b b2 : OutputBuff) (c : Char), b.append c = some b2 →
      b2.buff.length ≤ max_size)
    ∧ (∀ (fmt : List Char) (args : List Arg) (s : List Char) (rest : List Arg),
      emitScan fmt args = some (s, rest) → s.length + 1 ≤ max_size →
      on_format_impl fmt args = some (s ++ [nulChar])) :=
  ⟨append_eq_of_lt, append_eq_none,
   fun b b2 c h => (append_some b b2 c h).2,
   on_format_impl_complete⟩

theorem C5_capacity_checked_append_witness :
    (OutputBuff.mk []).append 'x' = some ⟨['x']⟩ ∧
    on_format_impl (("N").data) [Arg.aU8 10] = some (("0x0a").data ++ [nulChar]) := by
  constructor
  · exact C5_capacity_checked_append.1 ⟨[]⟩ 'x' (by decide)
  · exact C5_capacity_checked_append.2.2.2 (("N").data) [Arg.aU8 10]
      (("0x0a").data) [] (by decide) (by decide)

/-- Claim C6: a formatting call hands the output callback exactly one
line, after the whole scan, and that line is the buffer terminated by a
NUL sentinel (no NUL occurs before the terminator when the format string
itself has none). -/
theorem C6_single_output_nul_terminated (fmt : List Char) (args : List Arg)
    (evs : List (List Char)) (hfmt : nulChar ∉ fmt)
    (h : on_format_outputs fmt args = some evs) :
    evs.length = 1 ∧ ∃ line, evs = [line ++ [nulChar]] ∧ nulChar ∉ line := by
  unfold on_format_outputs at h
  cases him : on_format_impl fmt args with
  | none =>
    rw [him] at h
    cases h
  | some out =>
    rw [him] at h
    injection h with h
    subst h
    obtain ⟨s, rest, he, hout, _⟩ := on_format_impl_sound fmt args out him
    refine ⟨rfl, s, by rw [hout], ?_⟩
    intro hmem
    exact emitScan_ne_nul fmt args s rest
      (fun c hcm heq => hfmt (heq ▸ hcm)) he nulChar hmem rfl

theorem C6_single_output_nul_terminated_witness :
    ([("ld a, 0x0a").data ++ [nulChar]] : List (List Char)).length = 1 ∧
    ∃ line, ([("ld a, 0x0a").data ++ [nulChar]] : List (List Char)) =
      [line ++ [nulChar]] ∧ nulChar ∉ line :=
  C6_single_output_nul_terminated (("ld a, N").data) [Arg.aU8 10]
    [("ld a, 0x0a").data ++ [nulChar]] (by decide) (by decide)

/-- Claim C8: every character of the format string that is not one of the
directive characters A, R, P, N, W, C, D, L consumes no arguments and is
copied unchanged, and the literal characters appear in the output in
their original relative order. -/
theorem C8_literal_preservation :
    (∀ c : Char, c ∉ directiveChars → ∀ (b : OutputBuff) (args : List Arg),
      formatStep b c args = (b.append c).map (fun b2 => (b2, args)))
    ∧ (∀ (fmt : List Char) (args : List Arg) (out : List Char),
      on_format_impl fmt args = some out →
      List.Sublist (fmt.filter (fun c => decide (c ∉ directiveChars))) out) := by
  constructor
  · intro c hc b args
    rw [formatStep_eq_emit, emitStep_literal c args hc, Option.some_bind,
        appendList_singleton]
  · intro fmt args out h
    obtain ⟨s, rest, he, hout, _⟩ := on_format_impl_sound fmt args out h
    rw [hout]
    exact (emitScan_literal_sublist fmt args s rest he).trans
      (List.sublist_append_left s [nulChar])

theorem C8_literal_preservation_witness :
    formatStep ⟨[]⟩ 'z' [] =
      ((⟨[]⟩ : OutputBuff).append 'z').map (fun b2 => (b2, ([] : List Arg))) ∧
    List.Sublist ((("ld a, N").data).filter (fun c => decide (c ∉ directiveChars)))
      (("ld a, 0x0a").data ++ [nulChar]) := by
  constructor
  · exact C8_literal_preservation.1 'z' (by decide) ⟨[]⟩ []
  · exact C8_literal_preservation.2 (("ld a, N").data) [Arg.aU8 10]
      (("ld a, 0x0a").data ++ [nulChar]) (by decide)

/-- Claim C9: formatting is deterministic: equal format strings and equal
argument streams give byte-identical lines to the output callback. -/
theorem C9_determinism (fmt1 fmt2 : List Char) (args1 args2 : List Arg)
    (hf : fmt1 = fmt2) (ha : args1 = args2) :
    on_format_outputs fmt1 args1 = on_format_outputs fmt2 args2 := by
  subst hf
  subst ha
  rfl

theorem C9_determinism_witness :
    on_format_outputs (("L").data) [Arg.aBld BlockLd.ldir] =
      on_format_outputs (("L").data) [Arg.aBld BlockLd.ldir] :=
  C9_determinism (("L").data) (("L").data)
    [Arg.aBld BlockLd.ldir] [Arg.aBld BlockLd.ldir] rfl rfl

/-- Claim C10: the NUL terminator passes through the same capacity-checked
append, so a successful call's buffer, terminator included, holds at most
32 bytes and its visible line at most 31 characters. -/
theorem C10_terminator_capacity (fmt : List Char) (args : List Arg)
    (out : List Char) (h : on_format_impl fmt args = some out) :
    out.length ≤ max_size ∧
    ∃ line, out = line ++ [nulChar] ∧ line.length ≤ 31 := by
  rw [on_format_impl_eq] at h
  cases hscan : formatScan ⟨[]⟩ fmt args with
  | none =>
    rw [hscan] at h
    cases h
  | some o =>
    rw [hscan, Option.some_bind] at h
    cases happ : o.append nulChar with
    | none =>
      rw [happ] at h
      cases h
    | some o2 =>
      rw [happ] at h
      replace h : (some o2.buff : Option (List Char)) = some out := h
      injection h with h
      subst h
      obtain ⟨hb2, hlen⟩ := append_some o o2 nulChar happ
      have holt : o.buff.length < max_size := by
        unfold OutputBuff.append at happ
        by_cases hc : o.buff.length < max_size
        · exact hc
        · rw [if_neg hc] at happ
          cases happ
      refine ⟨hlen, o.buff, hb2, ?_⟩
      have h32 : max_size = 32 := rfl
      omega

theorem C10_terminator_capacity_witness :
    ((("nop").data ++ [nulChar]).length ≤ max_size) ∧
    ∃ line, (("nop").data ++ [nulChar]) = line ++ [nulChar] ∧ line.length ≤ 31 :=
  C10_terminator_capacity (("nop").data) [] (("nop").data ++ [nulChar]) (by decide)
